import Mathlib

/-!
Verification of the `HashMap` component of `tui.code-snippet`
(src/src/hashMap.js), embedded shallowly.

The JavaScript `HashMap` stores its entries as own properties of the
instance object itself: the bookkeeping field `length` and the user
entries (whose property names are the user keys prefixed by the marker
character `å`, the constant `_MAPDATAPREFIX`) live side by side on one
record.  We model that record as an association list of
(property name, value) pairs kept in insertion order, which is exactly
the own-property enumeration order a JS engine guarantees for these
property names (none of them is an array index).  Assigning to an
existing property keeps its position; assigning a fresh property
appends it; `delete` removes it.

Values are modelled by `JSVal`: the source only ever distinguishes
`null` from everything else (the guard `data !== null` in
`removeByKey`), so a type with `null`, numbers and strings covers the
behaviours the claims quantify over.

The iteration primitives `tui.util.forEachOwnProperties`,
`tui.util.forEach` and `tui.util.toArray` come from collection.js,
which is not part of the sources given; following the spec (§6,
"forEachOwnKey(record, fn) — enumerate own (non-inherited) string keys
of a record") they are modelled as left folds over the association
list / the argument list, and `removeAll`'s remove-while-iterating is
modelled as the spec's §5 "remove while iterating a snapshot of
current keys".
-/

/-- A JavaScript value as far as this component can distinguish them:
`null`, a number, or a string. -/
inductive JSVal where
  | vnull : JSVal
  | vnum : Int → JSVal
  | vstr : String → JSVal
  deriving DecidableEq, Repr

/-- The marker string `_MAPDATAPREFIX = 'å'` from hashMap.js: every user
entry's property name begins with it. -/
def mapDataMarker : String := "å"

/-- The marker as a character (the string is the single character `å`). -/
def mapDataMarkerChar : Char := 'å'

/-- `key.charAt(0) === _MAPDATAPREFIX`: the test in `each` selecting the
user entries among the own properties. -/
def startsWithMarker (s : String) : Bool :=
  match s.data with
  | c :: _ => c = mapDataMarkerChar
  | [] => false

/-- Own-property read: first (and, on well-formed records, only) binding
of the property name. `none` models JavaScript's `undefined`. -/
def lookupProp : List (String × JSVal) → String → Option JSVal
  | [], _ => none
  | (k, w) :: rest, p => if k = p then some w else lookupProp rest p

/-- Own-property assignment `record[p] = v`: overwrites in place when the
property exists (keeping its enumeration position), appends otherwise. -/
def setProp : List (String × JSVal) → String → JSVal → List (String × JSVal)
  | [], p, v => [(p, v)]
  | (k, w) :: rest, p, v =>
      if k = p then (p, v) :: rest else (k, w) :: setProp rest p v

/-- `delete record[p]`: removes the binding of the property name. -/
def deleteProp : List (String × JSVal) → String → List (String × JSVal)
  | [], _ => []
  | (k, w) :: rest, p => if k = p then rest else (k, w) :: deleteProp rest p

/-- The `HashMap` instance: its own properties, in enumeration
(insertion) order.  Both the bookkeeping field `length` and the
marker-prefixed user entries live here, as in the source. -/
structure HashMap where
  props : List (String × JSVal)
  deriving DecidableEq, Repr

/-- `new HashMap()`: sets `this.length = 0` and nothing else. -/
def HashMap.new : HashMap := ⟨[("length", JSVal.vnum 0)]⟩

/-- `HashMap.prototype.encodeKey`: `_MAPDATAPREFIX + key`. -/
def encodeKey (key : String) : String := mapDataMarker ++ key

/-- JavaScript `s.split(sep)` for a single-character separator `sep`:
accumulates the current segment and cuts at every occurrence of `c`. -/
def splitAux (c : Char) : List Char → List Char → List (List Char)
  | [], acc => [acc.reverse]
  | x :: xs, acc =>
      if x = c then acc.reverse :: splitAux c xs []
      else splitAux c xs (x :: acc)

/-- `key.split('å')` from `decodeKey`, modelled on the character list. -/
def jsSplitChar (s : String) (c : Char) : List String :=
  (splitAux c s.data []).map String.mk

/-- `HashMap.prototype.decodeKey`:
`decodedKey = key.split(_MAPDATAPREFIX); return decodedKey[decodedKey.length-1]`
— the last segment (split never yields an empty array). -/
def decodeKey (key : String) : String :=
  let decodedKey := jsSplitChar key mapDataMarkerChar
  decodedKey.getLastD ""

/-- `this.length` read as a number.  On every state this code can
produce, the property `length` holds a number (proved below as part of
the size invariant); the catch-all `0` branch is never reached from
such states. -/
def HashMap.length (m : HashMap) : Int :=
  match lookupProp m.props "length" with
  | some (JSVal.vnum n) => n
  | _ => 0

/-- `HashMap.prototype.has`: `this.hasOwnProperty(this.encodeKey(key))`. -/
def HashMap.has (m : HashMap) (key : String) : Bool :=
  (lookupProp m.props (encodeKey key)).isSome

/-- `HashMap.prototype.get`: `this[this.encodeKey(key)]`; `none` is
JavaScript's `undefined` for a missing property. -/
def HashMap.get (m : HashMap) (key : String) : Option JSVal :=
  lookupProp m.props (encodeKey key)

/-- `HashMap.prototype.setKeyValue`: bump `length` when the key is new,
then store under the encoded key. -/
def HashMap.setKeyValue (m : HashMap) (key : String) (value : JSVal) : HashMap :=
  let m1 : HashMap :=
    if m.has key then m
    else ⟨setProp m.props "length" (JSVal.vnum (m.length + 1))⟩
  ⟨setProp m1.props (encodeKey key) value⟩

/-- `HashMap.prototype.set` called with two arguments dispatches to
`setKeyValue`. -/
def HashMap.set (m : HashMap) (key : String) (value : JSVal) : HashMap :=
  m.setKeyValue key value

/-- `HashMap.prototype.setObject`: `forEachOwnProperties(obj, …)` calling
`setKeyValue` for every own property of the argument record, in its
enumeration order (spec §4.1 / §6). -/
def HashMap.setObject (m : HashMap) (obj : List (String × JSVal)) : HashMap :=
  obj.foldl (fun acc kv => acc.setKeyValue kv.1 kv.2) m

/-- `new HashMap(obj)`: `length = 0`, then `setObject(obj)`. -/
def HashMap.mkFrom (obj : List (String × JSVal)) : HashMap :=
  HashMap.new.setObject obj

/-- The sequence of (decoded key, value) pairs that
`HashMap.prototype.each` presents to an iteratee that never returns
`false`: the own properties whose name starts with the marker, in
enumeration order, with the key passed through `decodeKey`. -/
def HashMap.entriesList (m : HashMap) : List (String × JSVal) :=
  (m.props.filter (fun kv => startsWithMarker kv.1)).map
    (fun kv => (decodeKey kv.1, kv.2))

/-- `HashMap.prototype.keys`: `each` already hands the iteratee the
decoded key, and the callback pushes `self.decodeKey(key)` of it — the
keys are decoded twice. -/
def HashMap.keys (m : HashMap) : List String :=
  m.entriesList.map (fun kv => decodeKey kv.1)

/-- `HashMap.prototype.removeByKey`: reads the value behind the
`has` guard, and only when that value is not `null` deletes the
property and decrements `length`.  Returns (removed data, new state). -/
def HashMap.removeByKey (m : HashMap) (key : String) : JSVal × HashMap :=
  let data : JSVal := if m.has key then (m.get key).getD JSVal.vnull else JSVal.vnull
  if data ≠ JSVal.vnull then
    let m1 : HashMap := ⟨deleteProp m.props (encodeKey key)⟩
    let m2 : HashMap := ⟨setProp m1.props "length" (JSVal.vnum (m1.length - 1))⟩
    (data, m2)
  else
    (data, m)

/-- `HashMap.prototype.remove` called with one string argument:
`isArray(key)` is false, so it is `removeByKey`. -/
def HashMap.remove (m : HashMap) (key : String) : JSVal × HashMap :=
  m.removeByKey key

/-- `HashMap.prototype.removeByKeyArray`: `forEach` over the key array
(left to right, spec §6), pushing each `removeByKey` result. -/
def HashMap.removeByKeyArray (m : HashMap) (keyArray : List String) :
    List JSVal × HashMap :=
  keyArray.foldl
    (fun (acc : List JSVal × HashMap) key =>
      let r := acc.2.removeByKey key
      (acc.1 ++ [r.1], r.2))
    ([], m)

/-- `HashMap.prototype.removeAll`: `each` over the entries, calling
`remove` with the decoded key of every visited entry.  Iteration under
concurrent removal is modelled as the spec's §5 snapshot: the visited
keys are the decoded keys present when the call starts (an entry whose
property was deleted by an earlier step yields a no-op `remove`, just
as the engine skips a property deleted before being visited). -/
def HashMap.removeAll (m : HashMap) : HashMap :=
  (m.entriesList.map Prod.fst).foldl (fun acc key => (acc.removeByKey key).2) m

/-- `HashMap.prototype.merge`: `other.each(…)` calling
`this.setKeyValue(key, value)` with the decoded key of every entry of
`other`, in `other`'s enumeration order.  `other` is only read. -/
def HashMap.merge (m other : HashMap) : HashMap :=
  other.entriesList.foldl (fun acc kv => acc.setKeyValue kv.1 kv.2) m

/-- The spec-side reading of "the last (rightmost) segment of `l` split
on `c`": the maximal suffix of `l` containing no `c`. -/
def lastSegData (c : Char) (l : List Char) : List Char :=
  (l.reverse.takeWhile (fun x => x != c)).reverse

/-- The property names of the user entries (the marker-prefixed own
properties), in enumeration order. -/
def filterKeys (l : List (String × JSVal)) : List String :=
  (l.filter (fun kv => startsWithMarker kv.1)).map Prod.fst

/-- Well-formedness of the backing record: property names are not
repeated (a JS object cannot bind the same own property twice). -/
def HashMap.WF (m : HashMap) : Prop :=
  (m.props.map Prod.fst).Nodup

instance (m : HashMap) : Decidable m.WF :=
  inferInstanceAs (Decidable ((m.props.map Prod.fst).Nodup))

/-- The size invariant: the `length` property holds a number equal to
the number of user entries. -/
def HashMap.SizeInv (m : HashMap) : Prop :=
  lookupProp m.props "length" =
    some (JSVal.vnum ((m.props.filter (fun kv => startsWithMarker kv.1)).length : Int))

instance (m : HashMap) : Decidable m.SizeInv :=
  inferInstanceAs (Decidable (_ = _))

/-- Clean entries: every user entry holds a non-`null` value and its
property name is the encoding of a marker-free user key (equivalently,
re-encoding its decoding gives the property name back).  Stores built
with `set` from marker-free keys and non-`null` values are clean. -/
def HashMap.Clean (m : HashMap) : Prop :=
  ∀ kv ∈ m.props, startsWithMarker kv.1 = true →
    kv.2 ≠ JSVal.vnull ∧ kv.1 = encodeKey (decodeKey kv.1)

instance (m : HashMap) : Decidable m.Clean :=
  inferInstanceAs (Decidable (∀ kv ∈ m.props, _))

/-- Every user entry's property name is the encoding of a marker-free
user key (re-encoding its decoding gives the name back).  Unlike
`Clean`, nothing is required of the stored values: any store built with
`set` from marker-free keys satisfies this, whatever the values. -/
def HashMap.EncodedKeys (m : HashMap) : Prop :=
  ∀ kv ∈ m.props, startsWithMarker kv.1 = true → kv.1 = encodeKey (decodeKey kv.1)

instance (m : HashMap) : Decidable m.EncodedKeys :=
  inferInstanceAs (Decidable (∀ kv ∈ m.props, _))

/-- States reachable from a freshly constructed store by the public
mutating operations (the quantification of claim C4). -/
inductive Reachable : HashMap → Prop where
  | new : Reachable HashMap.new
  | setKV {m : HashMap} (k : String) (v : JSVal) :
      Reachable m → Reachable (m.setKeyValue k v)
  | setObj {m : HashMap} (obj : List (String × JSVal)) :
      Reachable m → Reachable (m.setObject obj)
  | mergeWith {m : HashMap} (other : HashMap) :
      Reachable m → Reachable (m.merge other)
  | removeOne {m : HashMap} (k : String) :
      Reachable m → Reachable (m.removeByKey k).2
  | removeArr {m : HashMap} (ks : List String) :
      Reachable m → Reachable (m.removeByKeyArray ks).2
  | removeEvery {m : HashMap} :
      Reachable m → Reachable m.removeAll

example : HashMap.new.length = 0 := rfl
example : (HashMap.new.set "key" (JSVal.vstr "value")).get "key" = some (JSVal.vstr "value") := rfl
example : (HashMap.new.set "key" (JSVal.vstr "value")).length = 1 := rfl
example : (HashMap.new.set "key" (JSVal.vstr "v")).has "key" = true := rfl
example : ((HashMap.new.set "a" (JSVal.vnum 1)).remove "a").1 = JSVal.vnum 1 := rfl
example : ((HashMap.new.set "a" (JSVal.vnum 1)).remove "a").2.length = 0 := rfl
example : ((HashMap.new.set "a" JSVal.vnull).remove "a").2.has "a" = true := by decide
example : decodeKey (encodeKey "abc") = "abc" := by decide
example : decodeKey (encodeKey "aåb") = "b" := by decide
example : (HashMap.mkFrom [("a", JSVal.vnum 1), ("b", JSVal.vnum 2)]).keys = ["a", "b"] := by decide
example : ((HashMap.new.set "b" (JSVal.vnum 1)).set "aåb" (JSVal.vnum 2)).removeAll.length = 1 := by decide
example : ((HashMap.new.set "aåb" (JSVal.vnum 2)).set "b" (JSVal.vnum 1)).removeAll.has "aåb" = true := by decide

/-! ### Association-list lemmas for the backing record -/

theorem lookupProp_setProp_self (l : List (String × JSVal)) (p : String) (v : JSVal) :
    lookupProp (setProp l p v) p = some v := by
  induction l with
  | nil => simp [setProp, lookupProp]
  | cons kv rest ih =>
    obtain ⟨k, w⟩ := kv
    by_cases h : k = p
    · simp [setProp, h, lookupProp]
    · simp [setProp, h, lookupProp, ih]

theorem lookupProp_setProp_ne {p q : String} (h : p ≠ q)
    (l : List (String × JSVal)) (v : JSVal) :
    lookupProp (setProp l q v) p = lookupProp l p := by
  induction l with
  | nil => simp [setProp, lookupProp, Ne.symm h]
  | cons kv rest ih =>
    obtain ⟨k, w⟩ := kv
    by_cases hk : k = q
    · subst hk
      simp [setProp, lookupProp, Ne.symm h]
    · simp [setProp, hk, lookupProp, ih]

theorem lookupProp_deleteProp_ne {p q : String} (h : p ≠ q)
    (l : List (String × JSVal)) :
    lookupProp (deleteProp l q) p = lookupProp l p := by
  induction l with
  | nil => simp [deleteProp]
  | cons kv rest ih =>
    obtain ⟨k, w⟩ := kv
    by_cases hk : k = q
    · subst hk
      simp [deleteProp, lookupProp, Ne.symm h]
    · simp [deleteProp, hk, lookupProp, ih]

theorem lookupProp_mem {l : List (String × JSVal)} {p : String} {w : JSVal}
    (h : lookupProp l p = some w) : (p, w) ∈ l := by
  induction l with
  | nil => simp [lookupProp] at h
  | cons kv rest ih =>
    obtain ⟨k, w'⟩ := kv
    by_cases hk : k = p
    · subst hk
      simp [lookupProp] at h
      subst h
      exact List.mem_cons_self _ _
    · simp [lookupProp, hk] at h
      exact List.mem_cons_of_mem _ (ih h)

theorem lookupProp_isSome_of_mem {l : List (String × JSVal)} {p : String} {w : JSVal}
    (h : (p, w) ∈ l) : (lookupProp l p).isSome = true := by
  induction l with
  | nil => simp at h
  | cons kv rest ih =>
    obtain ⟨k, w'⟩ := kv
    by_cases hk : k = p
    · simp [lookupProp, hk]
    · simp [lookupProp, hk]
      rcases List.mem_cons.mp h with heq | hmem
      · exact absurd (congrArg Prod.fst heq).symm hk
      · exact ih hmem

theorem lookupProp_eq_none_iff {l : List (String × JSVal)} {p : String} :
    lookupProp l p = none ↔ p ∉ l.map Prod.fst := by
  induction l with
  | nil => simp [lookupProp]
  | cons kv rest ih =>
    obtain ⟨k, w⟩ := kv
    by_cases hk : k = p
    · subst hk
      simp [lookupProp]
    · simp [lookupProp, hk, ih, Ne.symm hk]

theorem lookupProp_nodup_mem {l : List (String × JSVal)}
    (hn : (l.map Prod.fst).Nodup) {p : String} {w : JSVal}
    (h : (p, w) ∈ l) : lookupProp l p = some w := by
  induction l with
  | nil => simp at h
  | cons kv rest ih =>
    obtain ⟨k, w'⟩ := kv
    simp only [List.map_cons, List.nodup_cons] at hn
    rcases List.mem_cons.mp h with heq | hmem
    · obtain ⟨h1, h2⟩ := Prod.mk.injEq .. ▸ heq.symm
      subst h1
      subst h2
      simp [lookupProp]
    · by_cases hk : k = p
      · subst hk
        exact absurd (List.mem_map_of_mem Prod.fst hmem) hn.1
      · simp [lookupProp, hk]
        exact ih hn.2 hmem

theorem map_fst_setProp (l : List (String × JSVal)) (p : String) (v : JSVal) :
    (setProp l p v).map Prod.fst =
      if (lookupProp l p).isSome then l.map Prod.fst else l.map Prod.fst ++ [p] := by
  induction l with
  | nil => simp [setProp, lookupProp]
  | cons kv rest ih =>
    obtain ⟨k, w⟩ := kv
    by_cases hk : k = p
    · subst hk
      simp [setProp, lookupProp]
    · simp only [setProp, if_neg hk, List.map_cons, lookupProp, hk, if_false, ih]
      by_cases hs : (lookupProp rest p).isSome
      · simp [hs]
      · simp [hs]

theorem deleteProp_sublist (l : List (String × JSVal)) (p : String) :
    (deleteProp l p).Sublist l := by
  induction l with
  | nil => simp [deleteProp]
  | cons kv rest ih =>
    obtain ⟨k, w⟩ := kv
    by_cases hk : k = p
    · simp only [deleteProp, if_pos hk]
      exact (List.sublist_cons_self _ _)
    · simp only [deleteProp, if_neg hk]
      exact ih.cons₂ _

theorem mem_setProp {l : List (String × JSVal)} {p : String} {v : JSVal}
    {kv : String × JSVal} (h : kv ∈ setProp l p v) : kv = (p, v) ∨ kv ∈ l := by
  induction l with
  | nil => simpa [setProp] using h
  | cons kw rest ih =>
    obtain ⟨k, w⟩ := kw
    by_cases hk : k = p
    · simp only [setProp, if_pos hk] at h
      rcases List.mem_cons.mp h with heq | hmem
      · exact Or.inl heq
      · exact Or.inr (List.mem_cons_of_mem _ hmem)
    · simp only [setProp, if_neg hk] at h
      rcases List.mem_cons.mp h with heq | hmem
      · exact Or.inr (heq ▸ List.mem_cons_self _ _)
      · rcases ih hmem with h1 | h2
        · exact Or.inl h1
        · exact Or.inr (List.mem_cons_of_mem _ h2)

/-! ### Key encoding and decoding -/

theorem string_mk_data (s : String) : String.mk s.data = s := by
  cases s
  rfl

theorem data_encodeKey (k : String) : (encodeKey k).data = mapDataMarkerChar :: k.data := by
  cases k
  rfl

theorem startsWithMarker_encodeKey (k : String) :
    startsWithMarker (encodeKey k) = true := by
  simp [startsWithMarker, data_encodeKey]

theorem startsWithMarker_length : startsWithMarker "length" = false := by decide

theorem encodeKey_ne_length (k : String) : encodeKey k ≠ "length" := by
  intro h
  have hd := congrArg String.data h
  rw [data_encodeKey] at hd
  have : mapDataMarkerChar = 'l' := by
    have := congrArg (fun l => l.headI) hd
    simpa using this
  exact absurd this (by decide)

theorem encodeKey_injEq {k₁ k₂ : String} (h : encodeKey k₁ = encodeKey k₂) : k₁ = k₂ := by
  have hd := congrArg String.data h
  rw [data_encodeKey, data_encodeKey] at hd
  have := List.tail_eq_of_cons_eq hd
  calc k₁ = String.mk k₁.data := (string_mk_data k₁).symm
    _ = String.mk k₂.data := by rw [this]
    _ = k₂ := string_mk_data k₂

theorem takeWhile_append_all {α : Type} (p : α → Bool) (a b : List α)
    (ha : ∀ x ∈ a, p x = true) :
    (a ++ b).takeWhile p = a ++ b.takeWhile p := by
  induction a with
  | nil => simp
  | cons x xs ih =>
    have hx := ha x (List.mem_cons_self _ _)
    simp only [List.cons_append, List.takeWhile_cons, hx, if_true]
    rw [ih (fun y hy => ha y (List.mem_cons_of_mem _ hy))]

theorem takeWhile_append_stops {α : Type} (p : α → Bool) (a b : List α)
    (ha : ∃ x ∈ a, p x = false) :
    (a ++ b).takeWhile p = a.takeWhile p := by
  induction a with
  | nil => simp at ha
  | cons x xs ih =>
    by_cases hx : p x = true
    · simp only [List.cons_append, List.takeWhile_cons, hx, if_true]
      obtain ⟨y, hy, hyp⟩ := ha
      rcases List.mem_cons.mp hy with rfl | hmem
      · rw [hx] at hyp
        cases hyp
      · rw [ih ⟨y, hmem, hyp⟩]
    · have hx' : p x = false := by
        cases hpx : p x
        · rfl
        · exact absurd hpx hx
      simp [List.takeWhile_cons, hx']

theorem lastSegData_of_not_mem {c : Char} {l : List Char} (h : c ∉ l) :
    lastSegData c l = l := by
  unfold lastSegData
  rw [List.takeWhile_eq_self_iff.mpr, List.reverse_reverse]
  intro x hx
  have : x ≠ c := by
    intro hxc
    exact h (hxc ▸ List.mem_reverse.mp hx)
  simpa using this

theorem takeWhile_append_single {α : Type} (p : α → Bool) (a : List α) {y : α}
    (hy : p y = false) :
    (a ++ [y]).takeWhile p = a.takeWhile p := by
  induction a with
  | nil => simp [List.takeWhile_cons, hy]
  | cons x xs ih =>
    by_cases hx : p x = true
    · simp [List.takeWhile_cons, hx, ih]
    · have hx' : p x = false := by
        cases hpx : p x
        · rfl
        · exact absurd hpx hx
      simp [List.takeWhile_cons, hx']

theorem lastSegData_cons_self (c : Char) (l : List Char) :
    lastSegData c (c :: l) = lastSegData c l := by
  unfold lastSegData
  rw [List.reverse_cons, takeWhile_append_single]
  simp

theorem lastSegData_cons_mem {c x : Char} {l : List Char} (hm : c ∈ l) :
    lastSegData c (x :: l) = lastSegData c l := by
  unfold lastSegData
  rw [List.reverse_cons, takeWhile_append_stops]
  exact ⟨c, List.mem_reverse.mpr hm, by simp⟩

theorem splitAux_getLastD (c : Char) (l : List Char) :
    ∀ (acc : List Char) (d : List Char),
    (splitAux c l acc).getLastD d =
      if c ∈ l then lastSegData c l else acc.reverse ++ l := by
  induction l with
  | nil =>
    intro acc d
    simp [splitAux, lastSegData]
  | cons x xs ih =>
    intro acc d
    by_cases hx : x = c
    · subst hx
      have hsplit : splitAux x (x :: xs) acc = acc.reverse :: splitAux x xs [] := by
        simp [splitAux]
      rw [hsplit, List.getLastD_cons, ih [] acc.reverse,
        if_pos (List.mem_cons_self x xs), lastSegData_cons_self]
      by_cases hm : x ∈ xs
      · rw [if_pos hm]
      · rw [if_neg hm, lastSegData_of_not_mem hm]
        simp
    · have hsplit : splitAux c (x :: xs) acc = splitAux c xs (x :: acc) := by
        simp [splitAux, hx]
      rw [hsplit, ih (x :: acc) d]
      by_cases hm : c ∈ xs
      · rw [if_pos hm, if_pos (List.mem_cons_of_mem _ hm), lastSegData_cons_mem hm]
      · have hnm : c ∉ x :: xs := by
          intro hcm
          rcases List.mem_cons.mp hcm with hcx | hcx
          · exact hx hcx.symm
          · exact hm hcx
        rw [if_neg hm, if_neg hnm]
        simp

theorem getLastD_map {α β : Type} (f : α → β) (l : List α) (d : α) :
    (l.map f).getLastD (f d) = f (l.getLastD d) := by
  induction l generalizing d with
  | nil => rfl
  | cons x xs ih =>
    rw [List.map_cons, List.getLastD_cons, List.getLastD_cons, ih]

theorem decodeKey_eq_lastSeg (s : String) :
    decodeKey s = String.mk (lastSegData mapDataMarkerChar s.data) := by
  unfold decodeKey jsSplitChar
  have h0 : ("" : String) = String.mk [] := rfl
  rw [h0, getLastD_map, splitAux_getLastD]
  by_cases hm : mapDataMarkerChar ∈ s.data
  · simp [hm]
  · simp [hm, lastSegData_of_not_mem hm]

theorem marker_not_mem_decodeKey (s : String) :
    mapDataMarkerChar ∉ (decodeKey s).data := by
  rw [decodeKey_eq_lastSeg]
  intro hm
  have hm' : mapDataMarkerChar ∈ lastSegData mapDataMarkerChar s.data := hm
  unfold lastSegData at hm'
  have := List.mem_takeWhile_imp (List.mem_reverse.mp hm')
  simp at this

theorem decodeKey_of_not_mem {s : String} (h : mapDataMarkerChar ∉ s.data) :
    decodeKey s = s := by
  rw [decodeKey_eq_lastSeg, lastSegData_of_not_mem h, string_mk_data]

theorem decodeKey_idem (s : String) : decodeKey (decodeKey s) = decodeKey s :=
  decodeKey_of_not_mem (marker_not_mem_decodeKey s)

theorem decodeKey_encodeKey (k : String) :
    decodeKey (encodeKey k) = decodeKey k := by
  rw [decodeKey_eq_lastSeg, decodeKey_eq_lastSeg, data_encodeKey, lastSegData_cons_self]

theorem decodeKey_encodeKey_of_not_mem {k : String} (h : mapDataMarkerChar ∉ k.data) :
    decodeKey (encodeKey k) = k := by
  rw [decodeKey_encodeKey, decodeKey_of_not_mem h]

/-! ### Effects of `setKeyValue` -/

theorem has_eq_get_isSome (m : HashMap) (k : String) :
    m.has k = (m.get k).isSome := rfl

theorem get_setKeyValue_self (m : HashMap) (k : String) (v : JSVal) :
    (m.setKeyValue k v).get k = some v := by
  simp [HashMap.setKeyValue, HashMap.get, lookupProp_setProp_self]

theorem has_setKeyValue_self (m : HashMap) (k : String) (v : JSVal) :
    (m.setKeyValue k v).has k = true := by
  rw [has_eq_get_isSome, get_setKeyValue_self]
  rfl

theorem get_setKeyValue_ne {k k' : String} (h : k ≠ k') (m : HashMap) (v : JSVal) :
    (m.setKeyValue k' v).get k = m.get k := by
  have henc : encodeKey k ≠ encodeKey k' := fun he => h (encodeKey_injEq he)
  by_cases hh : m.has k'
  · simp only [HashMap.setKeyValue, if_pos hh, HashMap.get]
    exact lookupProp_setProp_ne henc _ _
  · simp only [HashMap.setKeyValue, if_neg hh, HashMap.get]
    rw [lookupProp_setProp_ne henc, lookupProp_setProp_ne (encodeKey_ne_length k)]

theorem has_setKeyValue_ne {k k' : String} (h : k ≠ k') (m : HashMap) (v : JSVal) :
    (m.setKeyValue k' v).has k = m.has k := by
  rw [has_eq_get_isSome, has_eq_get_isSome, get_setKeyValue_ne h]

theorem length_mk_deleteProp (m : HashMap) (k : String) :
    HashMap.length ⟨deleteProp m.props (encodeKey k)⟩ = m.length := by
  unfold HashMap.length
  rw [lookupProp_deleteProp_ne (Ne.symm (encodeKey_ne_length k))]

theorem length_setKeyValue (m : HashMap) (k : String) (v : JSVal) :
    (m.setKeyValue k v).length =
      if m.has k then m.length else m.length + 1 := by
  by_cases hh : m.has k
  · rw [if_pos hh]
    simp only [HashMap.setKeyValue, if_pos hh]
    unfold HashMap.length
    rw [lookupProp_setProp_ne (Ne.symm (encodeKey_ne_length k))]
  · rw [if_neg hh]
    simp only [HashMap.setKeyValue, if_neg hh]
    conv_lhs => rw [HashMap.length]
    rw [lookupProp_setProp_ne (Ne.symm (encodeKey_ne_length k)),
      lookupProp_setProp_self]

/-! ### Effects of `removeByKey` -/

theorem removeByKey_not_has {m : HashMap} {k : String} (h : m.has k = false) :
    m.removeByKey k = (JSVal.vnull, m) := by
  simp [HashMap.removeByKey, h]

theorem removeByKey_null {m : HashMap} {k : String}
    (h : m.get k = some JSVal.vnull) :
    m.removeByKey k = (JSVal.vnull, m) := by
  have hh : m.has k = true := by
    rw [has_eq_get_isSome, h]
    rfl
  simp [HashMap.removeByKey, hh, h]

theorem removeByKey_some {m : HashMap} {k : String} {v : JSVal}
    (hg : m.get k = some v) (hv : v ≠ JSVal.vnull) :
    m.removeByKey k =
      (v, ⟨setProp (deleteProp m.props (encodeKey k)) "length"
            (JSVal.vnum
              (HashMap.length ⟨deleteProp m.props (encodeKey k)⟩ - 1))⟩) := by
  have hh : m.has k = true := by
    rw [has_eq_get_isSome, hg]
    rfl
  simp [HashMap.removeByKey, hh, hg, hv]

theorem removeByKey_fst {m : HashMap} {k : String} {v : JSVal}
    (hg : m.get k = some v) (hv : v ≠ JSVal.vnull) :
    (m.removeByKey k).1 = v := by
  rw [removeByKey_some hg hv]

theorem length_mk_setProp_length (l : List (String × JSVal)) (n : Int) :
    HashMap.length ⟨setProp l "length" (JSVal.vnum n)⟩ = n := by
  unfold HashMap.length
  rw [lookupProp_setProp_self]

theorem length_removeByKey_some {m : HashMap} {k : String} {v : JSVal}
    (hg : m.get k = some v) (hv : v ≠ JSVal.vnull) :
    (m.removeByKey k).2.length = m.length - 1 := by
  rw [removeByKey_some hg hv]
  show HashMap.length ⟨setProp _ "length" _⟩ = _
  rw [length_mk_setProp_length, length_mk_deleteProp]

theorem lookupProp_deleteProp_self_of_nodup {l : List (String × JSVal)}
    (hn : (l.map Prod.fst).Nodup) (p : String) :
    lookupProp (deleteProp l p) p = none := by
  induction l with
  | nil => simp [deleteProp, lookupProp]
  | cons kv rest ih =>
    obtain ⟨k, w⟩ := kv
    simp only [List.map_cons, List.nodup_cons] at hn
    by_cases hk : k = p
    · subst hk
      simp only [deleteProp, if_pos rfl]
      exact lookupProp_eq_none_iff.mpr hn.1
    · simp only [deleteProp, if_neg hk, lookupProp, hk, if_false]
      exact ih hn.2

theorem has_removeByKey_some {m : HashMap} {k : String} {v : JSVal}
    (hwf : m.WF) (hg : m.get k = some v) (hv : v ≠ JSVal.vnull) :
    (m.removeByKey k).2.has k = false := by
  rw [removeByKey_some hg hv]
  show (lookupProp (setProp _ "length" _) (encodeKey k)).isSome = false
  rw [lookupProp_setProp_ne (encodeKey_ne_length k),
    lookupProp_deleteProp_self_of_nodup hwf]
  rfl

theorem get_removeByKey_ne {k k' : String} (h : k ≠ k') (m : HashMap) :
    ((m.removeByKey k').2).get k = m.get k := by
  have henc : encodeKey k ≠ encodeKey k' := fun he => h (encodeKey_injEq he)
  by_cases hh : m.has k'
  · obtain ⟨v, hv⟩ := Option.isSome_iff_exists.mp (by rw [← has_eq_get_isSome, hh])
    by_cases hnull : v = JSVal.vnull
    · rw [removeByKey_null (hnull ▸ hv)]
    · rw [removeByKey_some hv hnull]
      show lookupProp (setProp _ "length" _) (encodeKey k) = _
      rw [lookupProp_setProp_ne (encodeKey_ne_length k),
        lookupProp_deleteProp_ne henc]
      rfl
  · rw [removeByKey_not_has (by simpa using hh)]

theorem get_null_removeByKey {m : HashMap} {k : String}
    (h : m.get k = some JSVal.vnull) (k' : String) :
    ((m.removeByKey k').2).get k = some JSVal.vnull := by
  by_cases hk : k = k'
  · subst hk
    rw [removeByKey_null h]
    exact h
  · rw [get_removeByKey_ne hk]
    exact h

theorem get_null_removeLoop {k : String} :
    ∀ (ks : List String) (m : HashMap), m.get k = some JSVal.vnull →
    (ks.foldl (fun acc key => (acc.removeByKey key).2) m).get k = some JSVal.vnull := by
  intro ks
  induction ks with
  | nil => intro m h; exact h
  | cons x xs ih =>
    intro m h
    exact ih _ (get_null_removeByKey h x)

theorem get_null_removeAll {m : HashMap} {k : String}
    (h : m.get k = some JSVal.vnull) :
    m.removeAll.get k = some JSVal.vnull :=
  get_null_removeLoop _ m h

/-! ### The user-entry filter under property updates -/

theorem setProp_absent {l : List (String × JSVal)} {p : String}
    (h : lookupProp l p = none) (v : JSVal) :
    setProp l p v = l ++ [(p, v)] := by
  induction l with
  | nil => simp [setProp]
  | cons kv rest ih =>
    obtain ⟨k, w⟩ := kv
    by_cases hk : k = p
    · subst hk
      simp [lookupProp] at h
    · simp only [lookupProp, if_neg hk] at h
      simp [setProp, hk, ih h]

theorem filter_setProp_neg {p : String} (hp : startsWithMarker p = false)
    (l : List (String × JSVal)) (v : JSVal) :
    (setProp l p v).filter (fun kv => startsWithMarker kv.1) =
      l.filter (fun kv => startsWithMarker kv.1) := by
  induction l with
  | nil => simp [setProp, List.filter, hp]
  | cons kv rest ih =>
    obtain ⟨k, w⟩ := kv
    by_cases hk : k = p
    · subst hk
      simp [setProp, List.filter_cons, hp]
    · simp [setProp, hk, List.filter_cons, ih]

theorem filterKeys_setProp_pos {l : List (String × JSVal)} {p : String}
    (h : (lookupProp l p).isSome = true) (v : JSVal) :
    filterKeys (setProp l p v) = filterKeys l := by
  induction l with
  | nil => simp [lookupProp] at h
  | cons kv rest ih =>
    obtain ⟨k, w⟩ := kv
    by_cases hk : k = p
    · subst hk
      simp [setProp, filterKeys, List.filter_cons]
      by_cases hm : startsWithMarker k = true
      · simp [hm]
      · simp [Bool.eq_false_iff.mpr hm]
    · simp only [lookupProp, if_neg hk] at h
      simp only [setProp, if_neg hk]
      simp only [filterKeys, List.filter_cons] at ih ⊢
      by_cases hm : startsWithMarker k = true
      · simp [hm, ih h]
      · simp [Bool.eq_false_iff.mpr hm, ih h]

theorem filter_length_setProp_pos {l : List (String × JSVal)} {p : String}
    (h : (lookupProp l p).isSome = true) (v : JSVal) :
    ((setProp l p v).filter (fun kv => startsWithMarker kv.1)).length =
      (l.filter (fun kv => startsWithMarker kv.1)).length := by
  have h1 := congrArg List.length (filterKeys_setProp_pos h v)
  simpa [filterKeys] using h1

theorem filter_length_deleteProp {l : List (String × JSVal)} {p : String} {w : JSVal}
    (h : lookupProp l p = some w) (hp : startsWithMarker p = true) :
    ((deleteProp l p).filter (fun kv => startsWithMarker kv.1)).length + 1 =
      (l.filter (fun kv => startsWithMarker kv.1)).length := by
  induction l with
  | nil => simp [lookupProp] at h
  | cons kv rest ih =>
    obtain ⟨k, w'⟩ := kv
    by_cases hk : k = p
    · subst hk
      simp [deleteProp, List.filter_cons, hp]
    · simp only [lookupProp, if_neg hk] at h
      simp only [deleteProp, if_neg hk, List.filter_cons]
      by_cases hm : startsWithMarker k = true
      · simp [hm, ← ih h]
      · simp [Bool.eq_false_iff.mpr hm, ih h]

/-! ### Preservation of the size invariant -/

theorem length_of_sizeInv {m : HashMap} (h : m.SizeInv) :
    m.length = ((m.props.filter (fun kv => startsWithMarker kv.1)).length : Int) := by
  unfold HashMap.length
  rw [h]

theorem sizeInv_setKeyValue {m : HashMap} (h : m.SizeInv) (k : String) (v : JSVal) :
    (m.setKeyValue k v).SizeInv := by
  have hlen : (lookupProp m.props "length").isSome = true := by
    rw [h]
    rfl
  by_cases hh : m.has k
  · simp only [HashMap.setKeyValue, if_pos hh]
    show lookupProp (setProp m.props (encodeKey k) v) "length" = _
    rw [lookupProp_setProp_ne (Ne.symm (encodeKey_ne_length k)),
      filter_length_setProp_pos hh, h]
  · simp only [HashMap.setKeyValue, if_neg hh]
    show lookupProp (setProp (setProp m.props "length" _) (encodeKey k) v) "length" = _
    have habs : lookupProp (setProp m.props "length" (JSVal.vnum (m.length + 1))) (encodeKey k) = none := by
      rw [lookupProp_setProp_ne (encodeKey_ne_length k)]
      exact Option.not_isSome_iff_eq_none.mp (by simpa [HashMap.has] using hh)
    rw [setProp_absent habs, List.filter_append]
    have hne : lookupProp (setProp m.props "length" (JSVal.vnum (m.length + 1)) ++ [(encodeKey k, v)]) "length"
        = some (JSVal.vnum (m.length + 1)) := by
      rw [← setProp_absent habs]
      rw [lookupProp_setProp_ne (Ne.symm (encodeKey_ne_length k)), lookupProp_setProp_self]
    rw [hne, filter_setProp_neg startsWithMarker_length, length_of_sizeInv h]
    simp [List.filter_cons, startsWithMarker_encodeKey]

theorem sizeInv_removeByKey {m : HashMap} (h : m.SizeInv) (k : String) :
    ((m.removeByKey k).2).SizeInv := by
  by_cases hh : m.has k
  · obtain ⟨v, hv⟩ := Option.isSome_iff_exists.mp (by rw [← has_eq_get_isSome, hh])
    by_cases hnull : v = JSVal.vnull
    · rw [removeByKey_null (hnull ▸ hv)]
      exact h
    · rw [removeByKey_some hv hnull]
      show lookupProp (setProp _ "length" _) "length" = _
      rw [lookupProp_setProp_self, length_mk_deleteProp,
        filter_setProp_neg startsWithMarker_length]
      have hdel := filter_length_deleteProp (show lookupProp m.props (encodeKey k) = some v from hv)
        (startsWithMarker_encodeKey k)
      rw [length_of_sizeInv h]
      have hcast : (((m.props.filter (fun kv => startsWithMarker kv.1)).length : Int) - 1)
          = (((deleteProp m.props (encodeKey k)).filter (fun kv => startsWithMarker kv.1)).length : Int) := by
        omega
      rw [hcast]
  · rw [removeByKey_not_has (by simpa using hh)]
    exact h

theorem sizeInv_foldSet :
    ∀ (l : List (String × JSVal)) (m : HashMap), m.SizeInv →
    (l.foldl (fun acc kv => acc.setKeyValue kv.1 kv.2) m).SizeInv := by
  intro l
  induction l with
  | nil => intro m h; exact h
  | cons kv rest ih =>
    intro m h
    exact ih _ (sizeInv_setKeyValue h kv.1 kv.2)

theorem sizeInv_removeLoop :
    ∀ (ks : List String) (m : HashMap), m.SizeInv →
    (ks.foldl (fun acc key => (acc.removeByKey key).2) m).SizeInv := by
  intro ks
  induction ks with
  | nil => intro m h; exact h
  | cons x xs ih =>
    intro m h
    exact ih _ (sizeInv_removeByKey h x)

theorem removeByKeyArray_snd (m : HashMap) (ks : List String) :
    (m.removeByKeyArray ks).2 =
      ks.foldl (fun acc key => (acc.removeByKey key).2) m := by
  suffices h : ∀ (ks : List String) (ds : List JSVal) (m : HashMap),
      (ks.foldl (fun (acc : List JSVal × HashMap) key =>
        ((acc.1 ++ [(acc.2.removeByKey key).1], (acc.2.removeByKey key).2) : List JSVal × HashMap)) (ds, m)).2 =
      ks.foldl (fun acc key => (acc.removeByKey key).2) m by
    exact h ks [] m
  intro ks
  induction ks with
  | nil => intro ds m; rfl
  | cons x xs ih =>
    intro ds m
    exact ih _ _

theorem sizeInv_new : HashMap.new.SizeInv := by decide

theorem sizeInv_reachable {m : HashMap} (h : Reachable m) : m.SizeInv := by
  induction h with
  | new => exact sizeInv_new
  | setKV k v _ ih => exact sizeInv_setKeyValue ih k v
  | setObj obj _ ih => exact sizeInv_foldSet obj _ ih
  | mergeWith other _ ih => exact sizeInv_foldSet _ _ ih
  | removeOne k _ ih => exact sizeInv_removeByKey ih k
  | removeArr ks _ ih =>
    rw [removeByKeyArray_snd]
    exact sizeInv_removeLoop ks _ ih
  | removeEvery _ ih => exact sizeInv_removeLoop _ _ ih

/-! ### Draining `removeAll` on clean stores -/

theorem mem_filter_marker {l : List (String × JSVal)} {kv : String × JSVal}
    (h : kv ∈ l.filter (fun kv => startsWithMarker kv.1)) :
    kv ∈ l ∧ startsWithMarker kv.1 = true := by
  have hh := List.mem_filter.mp h
  exact ⟨hh.1, hh.2⟩

theorem filter_marker_cons_pos {k : String} (hm : startsWithMarker k = true)
    (w : JSVal) (l : List (String × JSVal)) :
    ((k, w) :: l).filter (fun kv => startsWithMarker kv.1)
      = (k, w) :: l.filter (fun kv => startsWithMarker kv.1) := by
  simp [List.filter_cons, hm]

theorem filter_marker_cons_neg {k : String} (hm : startsWithMarker k = false)
    (w : JSVal) (l : List (String × JSVal)) :
    ((k, w) :: l).filter (fun kv => startsWithMarker kv.1)
      = l.filter (fun kv => startsWithMarker kv.1) := by
  simp [List.filter_cons, hm]

theorem lookupProp_filter_head {props : List (String × JSVal)} {p₀ : String}
    {v₀ : JSVal} {fs : List (String × JSVal)}
    (h : props.filter (fun kv => startsWithMarker kv.1) = (p₀, v₀) :: fs) :
    lookupProp props p₀ = some v₀ := by
  induction props with
  | nil => simp at h
  | cons kv rest ih =>
    obtain ⟨k, w⟩ := kv
    by_cases hm : startsWithMarker k = true
    · rw [filter_marker_cons_pos hm] at h
      obtain ⟨h1, h2⟩ := List.cons_eq_cons.mp h
      obtain ⟨hk, hw⟩ := Prod.mk.injEq .. ▸ h1
      subst hk
      subst hw
      simp [lookupProp]
    · rw [filter_marker_cons_neg (Bool.not_eq_true _ ▸ hm)] at h
      have hp₀ : startsWithMarker p₀ = true :=
        (mem_filter_marker (h ▸ List.mem_cons_self (p₀, v₀) fs)).2
      have hk : k ≠ p₀ := fun hkp => hm (hkp ▸ hp₀)
      simp only [lookupProp, if_neg hk]
      exact ih h

theorem filter_deleteProp_head {props : List (String × JSVal)} {p₀ : String}
    {v₀ : JSVal} {fs : List (String × JSVal)}
    (h : props.filter (fun kv => startsWithMarker kv.1) = (p₀, v₀) :: fs) :
    (deleteProp props p₀).filter (fun kv => startsWithMarker kv.1) = fs := by
  induction props with
  | nil => simp at h
  | cons kv rest ih =>
    obtain ⟨k, w⟩ := kv
    by_cases hm : startsWithMarker k = true
    · rw [filter_marker_cons_pos hm] at h
      obtain ⟨h1, h2⟩ := List.cons_eq_cons.mp h
      obtain ⟨hk, hw⟩ := Prod.mk.injEq .. ▸ h1
      subst hk
      simp [deleteProp, h2]
    · rw [filter_marker_cons_neg (Bool.not_eq_true _ ▸ hm)] at h
      have hp₀ : startsWithMarker p₀ = true :=
        (mem_filter_marker (h ▸ List.mem_cons_self (p₀, v₀) fs)).2
      have hk : k ≠ p₀ := fun hkp => hm (hkp ▸ hp₀)
      rw [show deleteProp ((k, w) :: rest) p₀ = (k, w) :: deleteProp rest p₀ from by
          simp [deleteProp, hk],
        filter_marker_cons_neg (Bool.not_eq_true _ ▸ hm)]
      exact ih h

theorem removeAll_drain : ∀ (n : Nat) (m : HashMap),
    (m.props.filter (fun kv => startsWithMarker kv.1)).length = n →
    m.SizeInv → m.Clean →
    m.removeAll.props.filter (fun kv => startsWithMarker kv.1) = [] ∧
      m.removeAll.SizeInv := by
  intro n
  induction n with
  | zero =>
    intro m hn hS hC
    have hfil : m.props.filter (fun kv => startsWithMarker kv.1) = [] :=
      List.length_eq_zero.mp hn
    have hre : m.removeAll = m := by
      unfold HashMap.removeAll HashMap.entriesList
      rw [hfil]
      rfl
    rw [hre]
    exact ⟨hfil, hS⟩
  | succ n ih =>
    intro m hn hS hC
    obtain ⟨e, fs, hfil⟩ : ∃ e fs,
        m.props.filter (fun kv => startsWithMarker kv.1) = e :: fs := by
      cases hf : m.props.filter (fun kv => startsWithMarker kv.1) with
      | nil => rw [hf] at hn; simp at hn
      | cons e fs => exact ⟨e, fs, rfl⟩
    obtain ⟨p₀, v₀⟩ := e
    have hmemf : (p₀, v₀) ∈ m.props.filter (fun kv => startsWithMarker kv.1) :=
      hfil ▸ List.mem_cons_self _ _
    have hmem : (p₀, v₀) ∈ m.props := (mem_filter_marker hmemf).1
    have hmark : startsWithMarker p₀ = true := (mem_filter_marker hmemf).2
    have hclean := hC (p₀, v₀) hmem hmark
    have hlook : lookupProp m.props p₀ = some v₀ := lookupProp_filter_head hfil
    have hget : m.get (decodeKey p₀) = some v₀ := by
      show lookupProp m.props (encodeKey (decodeKey p₀)) = some v₀
      rw [← hclean.2]
      exact hlook
    have hstep := removeByKey_some hget hclean.1
    have hfil' : (m.removeByKey (decodeKey p₀)).2.props.filter
        (fun kv => startsWithMarker kv.1) = fs := by
      rw [hstep]
      show (setProp (deleteProp m.props (encodeKey (decodeKey p₀))) "length" _).filter _ = fs
      rw [filter_setProp_neg startsWithMarker_length, ← hclean.2]
      exact filter_deleteProp_head hfil
    have hS' : (m.removeByKey (decodeKey p₀)).2.SizeInv := sizeInv_removeByKey hS _
    have hC' : (m.removeByKey (decodeKey p₀)).2.Clean := by
      intro kv hkvm hkvmark
      have hkvm' : kv ∈ setProp (deleteProp m.props (encodeKey (decodeKey p₀))) "length"
          (JSVal.vnum (HashMap.length ⟨deleteProp m.props (encodeKey (decodeKey p₀))⟩ - 1)) := by
        rw [hstep] at hkvm
        exact hkvm
      rcases mem_setProp hkvm' with heq | hmem2
      · rw [heq] at hkvmark
        exact absurd hkvmark (by rw [startsWithMarker_length]; simp)
      · exact hC kv (List.Sublist.subset (deleteProp_sublist _ _) hmem2) hkvmark
    have hra : m.removeAll = (m.removeByKey (decodeKey p₀)).2.removeAll := by
      unfold HashMap.removeAll
      have h1 : m.entriesList.map Prod.fst =
          decodeKey p₀ :: (m.removeByKey (decodeKey p₀)).2.entriesList.map Prod.fst := by
        unfold HashMap.entriesList
        rw [hfil, hfil']
        simp [List.map_map]
      rw [h1, List.foldl_cons]
    rw [hra]
    apply ih
    · rw [hfil']
      rw [hfil] at hn
      exact Nat.succ_injective hn
    · exact hS'
    · exact hC'

/-! ### `merge` as a fold of `setKeyValue` -/

theorem get_foldSet_not_mem :
    ∀ (l : List (String × JSVal)) (A : HashMap) (k : String),
    k ∉ l.map Prod.fst →
    (l.foldl (fun acc kv => acc.setKeyValue kv.1 kv.2) A).get k = A.get k := by
  intro l
  induction l with
  | nil => intro A k _; rfl
  | cons kv rest ih =>
    intro A k h
    simp only [List.map_cons, List.mem_cons] at h
    push_neg at h
    rw [List.foldl_cons, ih _ _ h.2, get_setKeyValue_ne h.1]

theorem get_foldSet_mem :
    ∀ (l : List (String × JSVal)) (A : HashMap) (k : String) (v : JSVal),
    (l.map Prod.fst).Nodup → (k, v) ∈ l →
    (l.foldl (fun acc kv => acc.setKeyValue kv.1 kv.2) A).get k = some v := by
  intro l
  induction l with
  | nil => intro A k v _ hm; simp at hm
  | cons kv rest ih =>
    intro A k v hn hm
    simp only [List.map_cons, List.nodup_cons] at hn
    rcases List.mem_cons.mp hm with heq | hmem
    · rw [List.foldl_cons, ← heq]
      rw [get_foldSet_not_mem rest _ k (by rw [show k = ((k, v) : String × JSVal).1 from rfl, heq]; exact hn.1)]
      exact get_setKeyValue_self A k v
    · rw [List.foldl_cons]
      exact ih _ _ _ hn.2 hmem

theorem entriesList_names_nodup {B : HashMap} (hWF : B.WF) (hC : B.EncodedKeys) :
    (B.entriesList.map Prod.fst).Nodup := by
  have h1 : B.entriesList.map Prod.fst
      = ((B.props.filter (fun kv => startsWithMarker kv.1)).map Prod.fst).map decodeKey := by
    unfold HashMap.entriesList
    simp [List.map_map, Function.comp]
  rw [h1]
  have hnod : ((B.props.filter (fun kv => startsWithMarker kv.1)).map Prod.fst).Nodup := by
    have hsub : ((B.props.filter (fun kv => startsWithMarker kv.1)).map Prod.fst).Sublist
        (B.props.map Prod.fst) :=
      List.Sublist.map _ (List.filter_sublist _)
    exact hWF.sublist hsub
  refine hnod.map_on ?_
  intro p₁ h₁ p₂ h₂ hdec
  obtain ⟨kv₁, hkv₁, hp₁⟩ := List.mem_map.mp h₁
  obtain ⟨kv₂, hkv₂, hp₂⟩ := List.mem_map.mp h₂
  have hc₁ := hC kv₁ (mem_filter_marker hkv₁).1 (mem_filter_marker hkv₁).2
  have hc₂ := hC kv₂ (mem_filter_marker hkv₂).1 (mem_filter_marker hkv₂).2
  calc p₁ = kv₁.1 := hp₁.symm
    _ = encodeKey (decodeKey kv₁.1) := hc₁
    _ = encodeKey (decodeKey p₁) := by rw [hp₁]
    _ = encodeKey (decodeKey p₂) := by rw [hdec]
    _ = encodeKey (decodeKey kv₂.1) := by rw [hp₂]
    _ = kv₂.1 := hc₂.symm
    _ = p₂ := hp₂

theorem mem_entriesList_of_get {B : HashMap} (hC : B.EncodedKeys) {k : String} {v : JSVal}
    (hg : B.get k = some v) : (k, v) ∈ B.entriesList := by
  have hmem : (encodeKey k, v) ∈ B.props := lookupProp_mem hg
  have hfil : (encodeKey k, v) ∈ B.props.filter (fun kv => startsWithMarker kv.1) :=
    List.mem_filter.mpr ⟨hmem, startsWithMarker_encodeKey k⟩
  have hin : (decodeKey (encodeKey k), v) ∈ B.entriesList := by
    unfold HashMap.entriesList
    exact List.mem_map.mpr ⟨(encodeKey k, v), hfil, rfl⟩
  have hc := hC (encodeKey k, v) hmem (startsWithMarker_encodeKey k)
  have hk : k = decodeKey (encodeKey k) := encodeKey_injEq hc
  rw [hk]
  exact hin

theorem not_mem_entriesList_names {B : HashMap} (hC : B.EncodedKeys) {k : String}
    (hh : B.has k = false) : k ∉ B.entriesList.map Prod.fst := by
  intro hmem
  obtain ⟨kv, hkv, hfst⟩ := List.mem_map.mp hmem
  unfold HashMap.entriesList at hkv
  obtain ⟨kv', hkv', heq⟩ := List.mem_map.mp hkv
  obtain ⟨p', w'⟩ := kv'
  have hc : p' = encodeKey (decodeKey p') :=
    hC (p', w') (mem_filter_marker hkv').1 (mem_filter_marker hkv').2
  have hdk : decodeKey p' = k := by
    have := congrArg Prod.fst heq
    simpa [hfst] using this
  have hp' : p' = encodeKey k := by rw [hc, hdk]
  have hsome : (lookupProp B.props p').isSome = true :=
    lookupProp_isSome_of_mem (mem_filter_marker hkv').1
  rw [hp'] at hsome
  rw [show B.has k = (lookupProp B.props (encodeKey k)).isSome from rfl, hsome] at hh
  cases hh

/-! ### `keys` and insertion order -/

theorem keys_eq_names (m : HashMap) :
    m.keys = (filterKeys m.props).map decodeKey := by
  unfold HashMap.keys HashMap.entriesList filterKeys
  rw [List.map_map, List.map_map]
  refine List.map_congr_left ?_
  intro kv _
  simp [Function.comp, decodeKey_idem]

theorem entriesList_names_eq (m : HashMap) :
    m.entriesList.map Prod.fst = (filterKeys m.props).map decodeKey := by
  unfold HashMap.entriesList filterKeys
  rw [List.map_map, List.map_map]
  rfl

theorem keys_eq_entriesList_names (m : HashMap) :
    m.keys = m.entriesList.map Prod.fst := by
  rw [keys_eq_names, entriesList_names_eq]

theorem keys_setKeyValue_present {m : HashMap} {k : String} (hh : m.has k = true)
    (v : JSVal) : (m.setKeyValue k v).keys = m.keys := by
  have hprops : (m.setKeyValue k v).props = setProp m.props (encodeKey k) v := by
    simp [HashMap.setKeyValue, hh]
  rw [keys_eq_names, keys_eq_names, hprops, filterKeys_setProp_pos hh]

theorem filterKeys_setProp_length (l : List (String × JSVal)) (n : Int) :
    filterKeys (setProp l "length" (JSVal.vnum n)) = filterKeys l := by
  unfold filterKeys
  rw [filter_setProp_neg startsWithMarker_length]

theorem keys_setKeyValue_new {m : HashMap} {k : String} (hh : m.has k = false)
    (v : JSVal) : (m.setKeyValue k v).keys = m.keys ++ [decodeKey k] := by
  have hprops : (m.setKeyValue k v).props =
      setProp (setProp m.props "length" (JSVal.vnum (m.length + 1))) (encodeKey k) v := by
    simp [HashMap.setKeyValue, hh]
  have habs : lookupProp (setProp m.props "length" (JSVal.vnum (m.length + 1))) (encodeKey k) = none := by
    rw [lookupProp_setProp_ne (encodeKey_ne_length k)]
    exact Option.not_isSome_iff_eq_none.mp (by simp [HashMap.has] at hh; simp [hh])
  rw [keys_eq_names, keys_eq_names, hprops, setProp_absent habs]
  unfold filterKeys
  rw [List.filter_append, List.map_append, List.map_append]
  rw [filter_setProp_neg startsWithMarker_length]
  congr 1
  rw [show List.filter (fun kv => startsWithMarker kv.1) [(encodeKey k, v)]
      = [(encodeKey k, v)] from by simp [List.filter_cons, startsWithMarker_encodeKey]]
  simp [decodeKey_encodeKey]

/-! ### The claims -/

/-- Claim C1, counterexample: a present key whose stored value is `null`
refutes "when k is present, remove(k) decrements size by exactly 1 and
afterwards has(k) is false" — here `remove` returns `null`, the entry
stays, and `length` is unchanged. -/
theorem claim_C1_counterexample :
    (HashMap.new.set "a" JSVal.vnull).has "a" = true ∧
    ((HashMap.new.set "a" JSVal.vnull).remove "a").2.has "a" = true ∧
    ((HashMap.new.set "a" JSVal.vnull).remove "a").2.length
      = (HashMap.new.set "a" JSVal.vnull).length := by decide

/-- Claim C1, amended: on a well-formed store, `remove(k)` with a single
string key returns `null` and leaves the store unchanged when `k` is not
present or when the stored value is `null`; when `k` is present with a
non-`null` stored value it returns that value, decrements `length` by
exactly 1, and afterwards `has(k)` is false. -/
theorem claim_C1 (m : HashMap) (k : String) (hwf : m.WF) :
    (m.has k = false → m.remove k = (JSVal.vnull, m)) ∧
    (m.get k = some JSVal.vnull → m.remove k = (JSVal.vnull, m)) ∧
    (∀ v, m.get k = some v → v ≠ JSVal.vnull →
      (m.remove k).1 = v ∧ (m.remove k).2.length = m.length - 1 ∧
      (m.remove k).2.has k = false) := by
  refine ⟨?_, ?_, ?_⟩
  · intro h
    exact removeByKey_not_has h
  · intro h
    exact removeByKey_null h
  · intro v hg hv
    exact ⟨removeByKey_fst hg hv, length_removeByKey_some hg hv,
      has_removeByKey_some hwf hg hv⟩

/-- Witness for C1 at the store `{a: 1}` and key `a`. -/
theorem claim_C1_witness :
    ((HashMap.new.set "a" (JSVal.vnum 1)).remove "a").1 = JSVal.vnum 1 ∧
    ((HashMap.new.set "a" (JSVal.vnum 1)).remove "a").2.length
      = (HashMap.new.set "a" (JSVal.vnum 1)).length - 1 ∧
    ((HashMap.new.set "a" (JSVal.vnum 1)).remove "a").2.has "a" = false := by
  have h := (claim_C1 (HashMap.new.set "a" (JSVal.vnum 1)) "a" (by decide)).2.2
    (JSVal.vnum 1) (by decide) (by decide)
  exact ⟨h.1, h.2.1, h.2.2⟩

/-- Claim C2, counterexample: `removeAll()` does not drain a store holding
a `null`-valued entry — the entry survives and `length` stays 1. -/
theorem claim_C2_counterexample :
    (HashMap.new.set "a" JSVal.vnull).removeAll.length = 1 ∧
    (HashMap.new.set "a" JSVal.vnull).removeAll.has "a" = true ∧
    (HashMap.new.set "a" JSVal.vnull).removeAll.keys = ["a"] := by decide

/-- Claim C2, amended: on a store satisfying the size invariant all of
whose entries hold non-`null` values under encodings of marker-free keys,
`removeAll()` drains the store: `length` is 0, `keys()` is empty, and
`has(k)` is false for every key `k`. -/
theorem claim_C2 (m : HashMap) (hS : m.SizeInv) (hC : m.Clean) :
    m.removeAll.length = 0 ∧ m.removeAll.keys = [] ∧
    ∀ k, m.removeAll.has k = false := by
  obtain ⟨hfil, hS'⟩ := removeAll_drain _ m rfl hS hC
  refine ⟨?_, ?_, ?_⟩
  · rw [length_of_sizeInv hS', hfil]
    rfl
  · rw [keys_eq_names]
    unfold filterKeys
    rw [hfil]
    rfl
  · intro k
    rw [show m.removeAll.has k
        = (lookupProp m.removeAll.props (encodeKey k)).isSome from rfl]
    cases hl : lookupProp m.removeAll.props (encodeKey k) with
    | none => rfl
    | some w =>
      have hmf : (encodeKey k, w) ∈ m.removeAll.props.filter
          (fun kv => startsWithMarker kv.1) :=
        List.mem_filter.mpr ⟨lookupProp_mem hl, startsWithMarker_encodeKey k⟩
      rw [hfil] at hmf
      simp at hmf

/-- Witness for C2 at the store `{a: 1, b: "x"}`. -/
theorem claim_C2_witness :
    ((HashMap.new.set "a" (JSVal.vnum 1)).set "b" (JSVal.vstr "x")).removeAll.length = 0 ∧
    ((HashMap.new.set "a" (JSVal.vnum 1)).set "b" (JSVal.vstr "x")).removeAll.keys = [] ∧
    ((HashMap.new.set "a" (JSVal.vnum 1)).set "b" (JSVal.vstr "x")).removeAll.has "a" = false := by
  have h := claim_C2 ((HashMap.new.set "a" (JSVal.vnum 1)).set "b" (JSVal.vstr "x"))
    (by decide) (by decide)
  exact ⟨h.1, h.2.1, h.2.2 "a"⟩

/-- Claim C3: when the stored value of `k` is `null`, `remove(k)` returns
`null` and leaves the store untouched — `has(k)` stays true and `length`
is unchanged — and `removeAll()` leaves the `null`-valued entry in place. -/
theorem claim_C3 (m : HashMap) (k : String) (h : m.get k = some JSVal.vnull) :
    (m.remove k).1 = JSVal.vnull ∧ (m.remove k).2 = m ∧
    (m.remove k).2.has k = true ∧ (m.remove k).2.length = m.length ∧
    m.removeAll.get k = some JSVal.vnull ∧ m.removeAll.has k = true := by
  have hrm : m.remove k = (JSVal.vnull, m) := removeByKey_null h
  have hh : m.has k = true := by
    rw [has_eq_get_isSome, h]
    rfl
  refine ⟨by rw [hrm], by rw [hrm], ?_, by rw [hrm], get_null_removeAll h, ?_⟩
  · rw [hrm]
    exact hh
  · rw [has_eq_get_isSome, get_null_removeAll h]
    rfl

/-- Witness for C3 at the store `{a: null}` and key `a`. -/
theorem claim_C3_witness :
    ((HashMap.new.set "a" JSVal.vnull).remove "a").1 = JSVal.vnull ∧
    ((HashMap.new.set "a" JSVal.vnull).remove "a").2 = HashMap.new.set "a" JSVal.vnull ∧
    ((HashMap.new.set "a" JSVal.vnull).remove "a").2.has "a" = true ∧
    ((HashMap.new.set "a" JSVal.vnull).remove "a").2.length
      = (HashMap.new.set "a" JSVal.vnull).length ∧
    (HashMap.new.set "a" JSVal.vnull).removeAll.get "a" = some JSVal.vnull ∧
    (HashMap.new.set "a" JSVal.vnull).removeAll.has "a" = true :=
  claim_C3 (HashMap.new.set "a" JSVal.vnull) "a" (by decide)

/-- Claim C4: on every store reachable from a fresh construction by the
public mutating operations, `length` equals `keys().length`. -/
theorem claim_C4 (m : HashMap) (h : Reachable m) :
    m.length = (m.keys.length : Int) := by
  rw [length_of_sizeInv (sizeInv_reachable h)]
  congr 1
  rw [keys_eq_names]
  unfold filterKeys
  simp

/-- Witness for C4 at the store `{a: 1}`. -/
theorem claim_C4_witness :
    (HashMap.new.setKeyValue "a" (JSVal.vnum 1)).length
      = (((HashMap.new.setKeyValue "a" (JSVal.vnum 1)).keys).length : Int) :=
  claim_C4 _ (Reachable.setKV "a" (JSVal.vnum 1) Reachable.new)

/-- Claim C5: `set(k, v)` makes `get(k) = v` and `has(k)` true; `length`
grows by 1 exactly when `k` was absent; overwriting (`set(k, v₁)` then
`set(k, v₂)`) leaves `length` unchanged and `get(k) = v₂`. -/
theorem claim_C5 (m : HashMap) (k : String) (v v₁ v₂ : JSVal) :
    (m.set k v).get k = some v ∧
    (m.set k v).has k = true ∧
    (m.set k v).length = (if m.has k then m.length else m.length + 1) ∧
    ((m.set k v₁).set k v₂).get k = some v₂ ∧
    ((m.set k v₁).set k v₂).length = (m.set k v₁).length := by
  refine ⟨get_setKeyValue_self m k v, has_setKeyValue_self m k v,
    length_setKeyValue m k v, get_setKeyValue_self _ k v₂, ?_⟩
  rw [show (m.set k v₁).set k v₂ = (m.set k v₁).setKeyValue k v₂ from rfl,
    length_setKeyValue,
    if_pos (show (m.set k v₁).has k = true from has_setKeyValue_self m k v₁)]

/-- Claim C6: every encoded key starts with the reserved marker, the
bookkeeping field `length` does not, the two can never collide, and
`set(k, v)` — for any key `k`, including `"length"` — stores `v`
retrievably while keeping the size counter correct. -/
theorem claim_C6 (m : HashMap) (k : String) (v : JSVal) :
    startsWithMarker (encodeKey k) = true ∧
    startsWithMarker "length" = false ∧
    encodeKey k ≠ "length" ∧
    (m.set k v).get k = some v ∧
    (m.set k v).length = (if m.has k then m.length else m.length + 1) :=
  ⟨startsWithMarker_encodeKey k, startsWithMarker_length, encodeKey_ne_length k,
    get_setKeyValue_self m k v, length_setKeyValue m k v⟩

/-- Claim C7: for marker-free keys, decoding inverts encoding; encoding
is injective on all string keys. -/
theorem claim_C7 :
    (∀ k : String, mapDataMarkerChar ∉ k.data → decodeKey (encodeKey k) = k) ∧
    Function.Injective encodeKey :=
  ⟨fun _ h => decodeKey_encodeKey_of_not_mem h, fun _ _ h => encodeKey_injEq h⟩

/-- Witness for C7 at the keys `"length"` and `"ab"`. -/
theorem claim_C7_witness :
    decodeKey (encodeKey "length") = "length" ∧ ("ab" : String) = "ab" :=
  ⟨claim_C7.1 "length" (by decide),
    claim_C7.2 (show encodeKey "ab" = encodeKey "ab" from rfl)⟩

/-- Claim C8: `decodeKey` returns the last marker-delimited segment of
its argument; hence on a key containing the marker, decoding the encoding
yields that last segment — not the key itself (decode is lossy there). -/
theorem claim_C8 (s k : String) (hk : mapDataMarkerChar ∈ k.data) :
    decodeKey s = String.mk (lastSegData mapDataMarkerChar s.data) ∧
    decodeKey (encodeKey k) = decodeKey k ∧
    decodeKey (encodeKey k) ≠ k := by
  refine ⟨decodeKey_eq_lastSeg s, decodeKey_encodeKey k, ?_⟩
  intro he
  have hnm := marker_not_mem_decodeKey (encodeKey k)
  rw [he] at hnm
  exact hnm hk

/-- Witness for C8 at the strings `"xåy"` and `"aåb"`. -/
theorem claim_C8_witness :
    decodeKey "xåy" = String.mk (lastSegData mapDataMarkerChar "xåy".data) ∧
    decodeKey (encodeKey "aåb") = decodeKey "aåb" ∧
    decodeKey (encodeKey "aåb") ≠ "aåb" :=
  claim_C8 "xåy" "aåb" (by decide)

/-- Claim C9, counterexample: merging a store whose key contains the
marker does not transfer that entry under its own key — `each` hands
`merge` the decoded key, so `A.get` differs from `B.get` on it. -/
theorem claim_C9_counterexample :
    (HashMap.new.set "aåb" (JSVal.vnum 2)).has "aåb" = true ∧
    (HashMap.new.set "aåb" (JSVal.vnum 2)).get "aåb" = some (JSVal.vnum 2) ∧
    (HashMap.new.merge (HashMap.new.set "aåb" (JSVal.vnum 2))).get "aåb" = none := by
  decide

/-- Claim C9, amended: when the other store is well-formed and all its
entries are encodings of marker-free keys, `A.merge(B)` gives every key
present in `B` its `B`-value (last-write-wins) and leaves every other
key of `A` unchanged; `merge` only reads `B`. -/
theorem claim_C9 (A B : HashMap) (hWF : B.WF) (hC : B.EncodedKeys) :
    (∀ k v, B.get k = some v → (A.merge B).get k = some v) ∧
    (∀ k, B.has k = false → (A.merge B).get k = A.get k) := by
  constructor
  · intro k v hg
    exact get_foldSet_mem _ _ _ _ (entriesList_names_nodup hWF hC)
      (mem_entriesList_of_get hC hg)
  · intro k hh
    exact get_foldSet_not_mem _ _ _ (not_mem_entriesList_names hC hh)

/-- Witness for C9 at A = `{x: 1}`, B = `{x: 2, y: 3}` (the spec's merge
example), and also at B = `{a: null}` — `merge` transfers `null`-valued
entries like any other. -/
theorem claim_C9_witness :
    ((HashMap.new.set "x" (JSVal.vnum 1)).merge
      ((HashMap.new.set "x" (JSVal.vnum 2)).set "y" (JSVal.vnum 3))).get "x"
      = some (JSVal.vnum 2) ∧
    ((HashMap.new.set "x" (JSVal.vnum 1)).merge
      ((HashMap.new.set "x" (JSVal.vnum 2)).set "y" (JSVal.vnum 3))).get "z"
      = (HashMap.new.set "x" (JSVal.vnum 1)).get "z" ∧
    (HashMap.new.merge (HashMap.new.set "a" JSVal.vnull)).get "a"
      = some JSVal.vnull := by
  have h := claim_C9 (HashMap.new.set "x" (JSVal.vnum 1))
    ((HashMap.new.set "x" (JSVal.vnum 2)).set "y" (JSVal.vnum 3)) (by decide) (by decide)
  have h₂ := claim_C9 HashMap.new (HashMap.new.set "a" JSVal.vnull) (by decide) (by decide)
  exact ⟨h.1 "x" (JSVal.vnum 2) (by decide), h.2 "z" (by decide),
    h₂.1 "a" JSVal.vnull (by decide)⟩

/-- Claim C10: `keys()` lists the entries in the same order as iteration
visits them; re-setting a present key leaves `keys()` unchanged (the key
keeps its position), and setting a fresh key appends its decoded form at
the end — insertion order is preserved. -/
theorem claim_C10 (m : HashMap) (k : String) (v : JSVal) :
    m.keys = m.entriesList.map Prod.fst ∧
    (m.has k = true → (m.setKeyValue k v).keys = m.keys) ∧
    (m.has k = false → (m.setKeyValue k v).keys = m.keys ++ [decodeKey k]) :=
  ⟨keys_eq_entriesList_names m,
    fun h => keys_setKeyValue_present h v,
    fun h => keys_setKeyValue_new h v⟩

/-- Witness for C10 at the store `{a: 1}` with keys `a` (present) and
`b` (fresh). -/
theorem claim_C10_witness :
    ((HashMap.new.set "a" (JSVal.vnum 1)).setKeyValue "a" (JSVal.vnum 2)).keys
      = (HashMap.new.set "a" (JSVal.vnum 1)).keys ∧
    ((HashMap.new.set "a" (JSVal.vnum 1)).setKeyValue "b" (JSVal.vnum 2)).keys
      = (HashMap.new.set "a" (JSVal.vnum 1)).keys ++ [decodeKey "b"] :=
  ⟨(claim_C10 (HashMap.new.set "a" (JSVal.vnum 1)) "a" (JSVal.vnum 2)).2.1 (by decide),
    (claim_C10 (HashMap.new.set "a" (JSVal.vnum 1)) "b" (JSVal.vnum 2)).2.2 (by decide)⟩
